import Mathlib

/-!
# Verification of `src/LinkedList.ts`

Shallow embedding of the singly linked list from `src/LinkedList.ts`.

Nodes are identified by natural-number identities (JS object identity).
The mutable heap of a program run is an `LState`:
* `head`  — the list's `head` field (`null` is `none`);
* `next`  — every node's `next` field (`null` is `none`);
* `value` — every node's `value` field (no operation ever writes it).

Each method of the class is translated statement by statement.  `while`
loops become recursive functions; scans over the chain take an explicit
`fuel` bound (the JS loops are unbounded, and every theorem below supplies
fuel at least the length of the well-formed chain, where the loop and its
fuel-bounded translation agree).

A list is well formed when the pointer chain starting at `head` visits a
duplicate-free list `c` of node identities and ends at `null`; the
predicate `chainb` states exactly that and is the spec's §3 invariant.
-/

structure LState (V : Type) where
  head : Option Nat
  next : Nat → Option Nat
  value : Nat → V

/-- `chainb nf o c` holds when the pointer `o` starts a chain that visits
exactly the identities in `c` in order and then reaches `null`. -/
def chainb (nf : Nat → Option Nat) : Option Nat → List Nat → Bool
  | o, [] => decide (o = none)
  | o, a :: rest => decide (o = some a) && chainb nf (nf a) rest

/-! ## The operations of `LinkedList`, translated from the source -/

/-- The scan of `remove` (source lines 136–152): walk from `head` with a
trailing `previousNode`; on finding the node, splice it out of the chain
(or advance `head`) and break. -/
def removeGo (n : Nat) : Nat → Option Nat → Option Nat → {V : Type} → LState V → LState V
  | _, none, _, _, s => s
  | 0, some _, _, _, s => s
  | fuel + 1, some c, prev, _, s =>
    if c = n then
      match prev with
      | some p => { s with next := Function.update s.next p (s.next c) }
      | none => { s with head := s.next c }
    else removeGo n fuel (s.next c) (some c) s

/-- `remove(node)` (source lines 136–155): scan and splice, then
unconditionally `node.next = null`. -/
def remove (n fuel : Nat) {V : Type} (s : LState V) : LState V :=
  let s1 := removeGo n fuel s.head none s
  { s1 with next := Function.update s1.next n none }

/-- `setHead(node)` (source lines 51–63). -/
def setHead (n fuel : Nat) {V : Type} (s : LState V) : LState V :=
  match s.head with
  | none => { s with head := some n }
  | some _ =>
    let s1 := remove n fuel s
    { s1 with next := Function.update s1.next n s1.head, head := some n }

/-- `insertAfter(existingNode, nodeToInsert)` (source lines 75–87). -/
def insertAfter (e n fuel : Nat) {V : Type} (s : LState V) : LState V :=
  if e = n then s
  else
    let s1 := remove n fuel s
    { s1 with next := Function.update (Function.update s1.next n (s1.next e)) e (some n) }

/-- Result of the position scan of `insertAtPosition`. -/
inductive ScanResult where
  | ok (prev : Option Nat)
  | thrownErr (i : Nat)
  | crash
  deriving DecidableEq

/-- The `while (i < position)` scan of `insertAtPosition` (source lines
104–119).  The first argument is the remaining iteration count
`position - i`; `i` is carried alongside because the thrown error message
reports it.  Reading `currentNode.next` while `currentNode` is `null`
(the line under `@ts-ignore`) is the `crash` outcome. -/
def iapScan (nf : Nat → Option Nat) : Nat → Nat → Option Nat → Option Nat → ScanResult
  | 0, _, _, prev => ScanResult.ok prev
  | _ + 1, _, none, _ => ScanResult.crash
  | r + 1, i, some c, _ =>
    if nf c = none ∧ 0 < r then ScanResult.thrownErr (i + 1)
    else iapScan nf r (i + 1) (nf c) (some c)

/-- The message of the `Error` thrown by `insertAtPosition` (source lines
115–117). -/
def errMsg (position i : Nat) : String :=
  "The position " ++ Nat.repr position ++
    " extends beyond the end of the list (which is currently " ++ Nat.repr i ++ ")."

/-- Outcome of a call to `insertAtPosition`: normal return, the thrown
`Error` (with its message), or the TypeError from dereferencing `null`. -/
inductive IAPOutcome (V : Type) where
  | ok (s : LState V)
  | err (msg : String) (s : LState V)
  | nullDeref (s : LState V)

/-- Whether the outcome is the thrown (message-carrying) `Error`. -/
def IAPOutcome.threw {V : Type} : IAPOutcome V → Bool
  | IAPOutcome.err _ _ => true
  | _ => false

/-- Whether the outcome is the `null`-dereference TypeError. -/
def IAPOutcome.crashed {V : Type} : IAPOutcome V → Bool
  | IAPOutcome.nullDeref _ => true
  | _ => false

/-- The thrown `Error` message, when there is one. -/
def IAPOutcome.message {V : Type} : IAPOutcome V → Option String
  | IAPOutcome.err m _ => some m
  | _ => none

/-- `insertAtPosition(position, nodeToInsert)` (source lines 99–126):
first `remove(nodeToInsert)`, then scan for the predecessor of the given
1-based position, then `setHead` or `insertAfter`. -/
def insertAtPosition (position n fuel : Nat) {V : Type} (s : LState V) : IAPOutcome V :=
  let s1 := remove n fuel s
  match iapScan s1.next (position - 1) 1 s1.head none with
  | ScanResult.crash => IAPOutcome.nullDeref s1
  | ScanResult.thrownErr i => IAPOutcome.err (errMsg position i) s1
  | ScanResult.ok none => IAPOutcome.ok (setHead n fuel s1)
  | ScanResult.ok (some p) => IAPOutcome.ok (insertAfter p n fuel s1)

/-- The value-collecting loop of `toString` (source lines 31–37). -/
def collectFrom {V : Type} (value : Nat → V) (nf : Nat → Option Nat) : Nat → Option Nat → List V
  | 0, _ => []
  | _ + 1, none => []
  | fuel + 1, some a => value a :: collectFrom value nf fuel (nf a)

/-- `toString()` (source lines 30–40): collect the values head-to-tail and
join them with `" -> "`. -/
def LState.toString {V : Type} [ToString V] (s : LState V) (fuel : Nat) : String :=
  String.intercalate " -> " ((collectFrom s.value s.next fuel s.head).map ToString.toString)

/-- The scan of `containsNodeWithValue` (source lines 188–196). -/
def containsFrom {V : Type} [DecidableEq V] (value : Nat → V) (nf : Nat → Option Nat) (v : V) :
    Nat → Option Nat → Bool
  | 0, _ => false
  | _ + 1, none => false
  | fuel + 1, some a => if value a = v then true else containsFrom value nf v fuel (nf a)

/-- `containsNodeWithValue(value)` (source lines 187–199). -/
def containsNodeWithValue {V : Type} [DecidableEq V] (v : V) (fuel : Nat) (s : LState V) : Bool :=
  containsFrom s.value s.next v fuel s.head

/-- The loop of `removeNodesWithValue` (source lines 166–176): capture the
successor, possibly `remove` the current node, move to the captured
successor. -/
def removeNodesWithValueGo {V : Type} [DecidableEq V] (v : V) (inner : Nat) :
    Nat → Option Nat → LState V → LState V
  | 0, _, s => s
  | _ + 1, none, s => s
  | fuel + 1, some a, s =>
    let nextNode := s.next a
    let s1 := if s.value a = v then remove a inner s else s
    removeNodesWithValueGo v inner fuel nextNode s1

/-- `removeNodesWithValue(value)` (source lines 165–177). -/
def removeNodesWithValue {V : Type} [DecidableEq V] (v : V) (fuel : Nat) (s : LState V) :
    LState V :=
  removeNodesWithValueGo v fuel fuel s.head s

/-- The constructor's chaining loop (source lines 16–18): as long as the
head is present, `insertAfter(nodes[i-1], nodes[i])`. -/
def ctorGo (fuel : Nat) : Nat → List Nat → {V : Type} → LState V → LState V
  | _, [], _, s => s
  | prev, cur :: rest, _, s =>
    match s.head with
    | none => s
    | some _ => ctorGo fuel cur rest (insertAfter prev cur fuel s)

/-- `new LinkedList(...nodes)` (source lines 12–20): start from a fresh
list (`head = null`), `setHead` the first node, chain the rest. -/
def newList (fuel : Nat) (nodes : List Nat) {V : Type} (s0 : LState V) : LState V :=
  let s : LState V := { s0 with head := none }
  match nodes with
  | [] => s
  | n0 :: rest => ctorGo fuel n0 rest (setHead n0 fuel s)

/-! ### State-threading translations of the two queries

`toString` and `containsNodeWithValue` contain no assignment to any
`head`/`next`/`value` field, so their plain translations above take the
state and return only the answer.  To *state* that purity, the two
methods are also translated in state-passing style, where every statement
receives the heap and passes on the heap it leaves behind; the theorem
for the frame claim shows the passed-on heap is the input heap. -/

/-- State-passing translation of the `toString` loop. -/
def collectFromM {V : Type} : Nat → Option Nat → LState V → List V × LState V
  | 0, _, s => ([], s)
  | _ + 1, none, s => ([], s)
  | fuel + 1, some a, s =>
    let r := collectFromM fuel (s.next a) s
    (s.value a :: r.1, r.2)

/-- State-passing translation of `toString()`. -/
def toStringM {V : Type} [ToString V] (s : LState V) (fuel : Nat) : String × LState V :=
  let r := collectFromM fuel s.head s
  (String.intercalate " -> " (r.1.map ToString.toString), r.2)

/-- State-passing translation of the `containsNodeWithValue` scan. -/
def containsFromM {V : Type} [DecidableEq V] (v : V) : Nat → Option Nat → LState V → Bool × LState V
  | 0, _, s => (false, s)
  | _ + 1, none, s => (false, s)
  | fuel + 1, some a, s =>
    if s.value a = v then (true, s) else containsFromM v fuel (s.next a) s

/-- State-passing translation of `containsNodeWithValue(value)`. -/
def containsNodeWithValueM {V : Type} [DecidableEq V] (v : V) (fuel : Nat) (s : LState V) :
    Bool × LState V :=
  containsFromM v fuel s.head s

/-! ## Concrete states used as witnesses -/

/-- A value assignment naming five nodes like the repository's test suite. -/
def vals : Nat → String := fun k =>
  if k = 0 then "foo" else if k = 1 then "bar" else if k = 2 then "baz"
  else if k = 3 then "qux" else "quux"

/-- A three-node list `foo -> bar -> baz` (identities 0, 1, 2); node 3 is
detached. -/
def sampleS3 : LState String :=
  { head := some 0
    next := fun k => if k = 0 then some 1 else if k = 1 then some 2 else none
    value := vals }

/-- The empty list over the same heap of detached nodes. -/
def emptyS : LState String :=
  { head := none
    next := fun _ => none
    value := vals }

/-- A five-node list `foo -> bar -> bar -> bar -> qux` (identities 0–4),
three of whose nodes carry the value `"bar"`. -/
def sampleS5 : LState String :=
  { head := some 0
    next := fun k =>
      if k = 0 then some 1 else if k = 1 then some 2 else if k = 2 then some 3
      else if k = 3 then some 4 else none
    value := fun k => if k = 0 then "foo" else if k = 4 then "qux" else "bar" }

/-! ## Chain lemmas -/

@[simp] lemma chainb_nil {nf : Nat → Option Nat} {o : Option Nat} :
    chainb nf o [] = true ↔ o = none := by
  simp [chainb]

@[simp] lemma chainb_cons {nf : Nat → Option Nat} {o : Option Nat} {a : Nat} {l : List Nat} :
    chainb nf o (a :: l) = true ↔ o = some a ∧ chainb nf (nf a) l = true := by
  simp [chainb]

lemma chainb_congr {nf nf2 : Nat → Option Nat} :
    ∀ (c : List Nat) (o : Option Nat), (∀ a ∈ c, nf a = nf2 a) →
      chainb nf o c = chainb nf2 o c := by
  intro c
  induction c with
  | nil => intro o _; rfl
  | cons a rest ih =>
    intro o h
    have ha : nf a = nf2 a := h a (List.mem_cons_self a rest)
    simp only [chainb]
    rw [ha, ih (nf2 a) (fun x hx => h x (List.mem_cons_of_mem a hx))]

lemma getLast?_mem_list {c : List Nat} {p : Nat} (h : c.getLast? = some p) : p ∈ c :=
  List.mem_of_mem_getLast? (by rw [h]; exact Option.mem_some_iff.mpr rfl)

lemma chainb_getLast_next {nf : Nat → Option Nat} :
    ∀ {c : List Nat} {o : Option Nat} {p : Nat}, chainb nf o c = true →
      c.getLast? = some p → nf p = none := by
  intro c
  induction c with
  | nil => intro o p _ hp; simp at hp
  | cons a rest ih =>
    intro o p hc hp
    rw [chainb_cons] at hc
    cases rest with
    | nil =>
      have hap : a = p := by simpa using hp
      subst hap
      exact chainb_nil.mp hc.2
    | cons b rest2 =>
      rw [List.getLast?_cons_cons] at hp
      exact ih hc.2 hp

/-- Splicing `n` out at its predecessor `p` (the writes performed by
`remove` when `n` sits after `p` in the chain) leaves the chain without
`n`. -/
lemma chainb_remove_mid {nf : Nat → Option Nat} {n : Nat} :
    ∀ {pre suf : List Nat} {o : Option Nat} {p : Nat},
      chainb nf o (pre ++ n :: suf) = true → (pre ++ n :: suf).Nodup →
      pre.getLast? = some p →
      chainb (Function.update (Function.update nf p (nf n)) n none) o (pre ++ suf) = true := by
  intro pre
  induction pre with
  | nil => intro suf o p _ _ hp; simp at hp
  | cons a pre2 ih =>
    intro suf o p hc hnd hp
    rw [List.cons_append, chainb_cons] at hc
    obtain ⟨rfl, hrest⟩ := hc
    rw [List.cons_append, List.nodup_cons] at hnd
    obtain ⟨hamem, hnd2⟩ := hnd
    have han : a ≠ n := fun h =>
      hamem (by rw [h]; exact List.mem_append_right pre2 (List.mem_cons_self n suf))
    cases pre2 with
    | nil =>
      have hpa : a = p := by simpa using hp
      subst hpa
      rw [List.nil_append] at hamem hnd2 hrest
      rw [chainb_cons] at hrest
      obtain ⟨hpn, hsuf⟩ := hrest
      rw [List.nodup_cons] at hnd2
      have hasuf : a ∉ suf := fun h => hamem (List.mem_cons_of_mem n h)
      rw [List.cons_append, List.nil_append, chainb_cons]
      refine ⟨rfl, ?_⟩
      have hfa : Function.update (Function.update nf a (nf n)) n none a = nf n := by
        rw [Function.update_noteq han, Function.update_same]
      rw [hfa]
      have hpt : ∀ x ∈ suf, nf x = Function.update (Function.update nf a (nf n)) n none x := by
        intro x hx
        have hxn : x ≠ n := fun h => hnd2.1 (h ▸ hx)
        have hxa : x ≠ a := fun h => hasuf (h ▸ hx)
        rw [Function.update_noteq hxn, Function.update_noteq hxa]
      rw [← chainb_congr suf (nf n) hpt]
      exact hsuf
    | cons b pre3 =>
      rw [List.getLast?_cons_cons] at hp
      have hpmem : p ∈ b :: pre3 := getLast?_mem_list hp
      have hap : a ≠ p := fun h =>
        hamem (by rw [h]; exact List.mem_append_left (n :: suf) hpmem)
      rw [List.cons_append, chainb_cons]
      refine ⟨rfl, ?_⟩
      have hfa : Function.update (Function.update nf p (nf n)) n none a = nf a := by
        rw [Function.update_noteq han, Function.update_noteq hap]
      rw [hfa]
      exact ih hrest hnd2 hp

/-- The writes performed by `insertAfter` when inserting the detached
node `n` after a member `e` extend the chain by `n` right after `e`. -/
lemma chainb_insert_after {nf : Nat → Option Nat} {e n : Nat} :
    ∀ {pre suf : List Nat} {o : Option Nat},
      chainb nf o (pre ++ e :: suf) = true → (pre ++ e :: suf).Nodup →
      n ∉ pre ++ e :: suf →
      chainb (Function.update (Function.update nf n (nf e)) e (some n)) o
        (pre ++ e :: n :: suf) = true := by
  intro pre
  induction pre with
  | nil =>
    intro suf o hc hnd hn
    rw [List.nil_append] at hc hnd hn ⊢
    rw [chainb_cons] at hc
    obtain ⟨rfl, hsuf⟩ := hc
    rw [List.nodup_cons] at hnd
    have hne : n ≠ e := fun h => hn (by rw [h]; exact List.mem_cons_self e suf)
    have hnsuf : n ∉ suf := fun h => hn (List.mem_cons_of_mem e h)
    rw [chainb_cons]
    refine ⟨rfl, ?_⟩
    rw [Function.update_same, chainb_cons]
    refine ⟨rfl, ?_⟩
    have hfn : Function.update (Function.update nf n (nf e)) e (some n) n = nf e := by
      rw [Function.update_noteq hne, Function.update_same]
    rw [hfn]
    have hpt : ∀ x ∈ suf, nf x = Function.update (Function.update nf n (nf e)) e (some n) x := by
      intro x hx
      have hxe : x ≠ e := fun h => hnd.1 (h ▸ hx)
      have hxn : x ≠ n := fun h => hnsuf (h ▸ hx)
      rw [Function.update_noteq hxe, Function.update_noteq hxn]
    rw [← chainb_congr suf (nf e) hpt]
    exact hsuf
  | cons a pre2 ih =>
    intro suf o hc hnd hn
    rw [List.cons_append, chainb_cons] at hc
    obtain ⟨rfl, hrest⟩ := hc
    rw [List.cons_append, List.nodup_cons] at hnd
    obtain ⟨hamem, hnd2⟩ := hnd
    rw [List.cons_append] at hn
    have hna : n ≠ a := fun h => hn (by rw [h]; exact List.mem_cons_self a _)
    have hnrest : n ∉ pre2 ++ e :: suf := fun h => hn (List.mem_cons_of_mem a h)
    have hae : a ≠ e := fun h =>
      hamem (by rw [h]; exact List.mem_append_right pre2 (List.mem_cons_self e suf))
    rw [List.cons_append, chainb_cons]
    refine ⟨rfl, ?_⟩
    have hfa : Function.update (Function.update nf n (nf e)) e (some n) a = nf a := by
      rw [Function.update_noteq hae, Function.update_noteq hna.symm]
    rw [hfa]
    exact ih hrest hnd2 hnrest

/-! ## Characterizing `remove` on well-formed lists -/

lemma removeGo_notmem {V : Type} {s : LState V} {n : Nat} :
    ∀ {c : List Nat} {o prev : Option Nat} {fuel : Nat}, chainb s.next o c = true →
      n ∉ c → c.length ≤ fuel → removeGo n fuel o prev s = s := by
  intro c
  induction c with
  | nil =>
    intro o prev fuel hc _ _
    rw [chainb_nil] at hc
    subst hc
    cases fuel <;> rfl
  | cons a rest ih =>
    intro o prev fuel hc hn hf
    rw [chainb_cons] at hc
    obtain ⟨rfl, hrest⟩ := hc
    cases fuel with
    | zero => simp at hf
    | succ f =>
      have han : ¬ a = n := fun h => hn (by rw [← h]; exact List.mem_cons_self a rest)
      simp only [removeGo, if_neg han]
      exact ih hrest (fun h => hn (List.mem_cons_of_mem a h)) (Nat.le_of_succ_le_succ hf)

/-- `remove` on a node that is not in the chain only nulls that node's
`next` pointer. -/
lemma remove_absent {V : Type} {s : LState V} {n : Nat} {c : List Nat} {fuel : Nat}
    (hc : chainb s.next s.head c = true) (hn : n ∉ c) (hf : c.length ≤ fuel) :
    remove n fuel s = { s with next := Function.update s.next n none } := by
  simp only [remove]
  rw [removeGo_notmem hc hn hf]

/-- `remove` on the head node advances `head` and nulls the node's
`next`. -/
lemma remove_head {V : Type} {s : LState V} {n : Nat} {rest : List Nat} {fuel : Nat}
    (hc : chainb s.next s.head (n :: rest) = true) (hf : 0 < fuel) :
    remove n fuel s = { s with head := s.next n, next := Function.update s.next n none } := by
  rw [chainb_cons] at hc
  obtain ⟨hh, _⟩ := hc
  cases fuel with
  | zero => simp at hf
  | succ f =>
    simp only [remove, hh]
    simp [removeGo]

lemma getLast?_getD_cons_eq (b : Nat) (pre3 : List Nat) (x y : Nat) :
    (b :: pre3).getLast?.getD x = (b :: pre3).getLast?.getD y := by
  induction pre3 generalizing b with
  | nil => rfl
  | cons c pre4 ih => rw [List.getLast?_cons_cons]; exact ih c

lemma removeGo_after {V : Type} {s : LState V} {n : Nat} :
    ∀ {pre suf : List Nat} {o : Option Nat} {q : Nat} {fuel : Nat},
      chainb s.next o (pre ++ n :: suf) = true → n ∉ pre →
      (pre ++ n :: suf).length ≤ fuel →
      removeGo n fuel o (some q) s =
        { s with next := Function.update s.next (pre.getLast?.getD q) (s.next n) } := by
  intro pre
  induction pre with
  | nil =>
    intro suf o q fuel hc _ hf
    rw [List.nil_append, chainb_cons] at hc
    obtain ⟨rfl, _⟩ := hc
    cases fuel with
    | zero => simp at hf
    | succ f => simp [removeGo]
  | cons a pre2 ih =>
    intro suf o q fuel hc hn hf
    rw [List.cons_append, chainb_cons] at hc
    obtain ⟨rfl, hrest⟩ := hc
    cases fuel with
    | zero => simp at hf
    | succ f =>
      have han : ¬ a = n := fun h => hn (by rw [← h]; exact List.mem_cons_self a pre2)
      simp only [removeGo, if_neg han]
      rw [ih hrest (fun h => hn (List.mem_cons_of_mem a h))
        (by rw [List.cons_append, List.length_cons] at hf; exact Nat.le_of_succ_le_succ hf)]
      have hgl : pre2.getLast?.getD a = ((a :: pre2).getLast?).getD q := by
        cases pre2 with
        | nil => rfl
        | cons b pre3 =>
          rw [List.getLast?_cons_cons]
          exact getLast?_getD_cons_eq b pre3 a q
      rw [hgl]

/-- `remove` on a node that sits after the predecessor `p` in the chain:
repoint `p.next` past the node, then null the node's `next`. -/
lemma remove_mid {V : Type} {s : LState V} {n p : Nat} {pre suf : List Nat} {fuel : Nat}
    (hc : chainb s.next s.head (pre ++ n :: suf) = true) (hn : n ∉ pre)
    (hp : pre.getLast? = some p) (hf : (pre ++ n :: suf).length ≤ fuel) :
    remove n fuel s =
      { s with next := Function.update (Function.update s.next p (s.next n)) n none } := by
  cases pre with
  | nil => simp at hp
  | cons a pre2 =>
    rw [List.cons_append, chainb_cons] at hc
    obtain ⟨hh, hrest⟩ := hc
    cases fuel with
    | zero => simp at hf
    | succ f =>
      have han : ¬ a = n := fun h => hn (by rw [← h]; exact List.mem_cons_self a pre2)
      simp only [remove, hh]
      simp only [removeGo, if_neg han]
      rw [removeGo_after hrest (fun h => hn (List.mem_cons_of_mem a h))
        (by rw [List.cons_append, List.length_cons] at hf; exact Nat.le_of_succ_le_succ hf)]
      have hgl : pre2.getLast?.getD a = p := by
        cases pre2 with
        | nil => simpa using hp
        | cons b pre3 =>
          rw [List.getLast?_cons_cons] at hp
          rw [hp]
          rfl
      rw [hgl]
      simp [hh]

/-- Updating a pointer of a node outside the chain does not disturb the
chain. -/
lemma chainb_update_notmem {nf : Nat → Option Nat} {n : Nat} {w : Option Nat} {c : List Nat}
    (hn : n ∉ c) (o : Option Nat) : chainb (Function.update nf n w) o c = chainb nf o c := by
  refine (chainb_congr c o ?_).symm
  intro x hx
  have hxn : x ≠ n := fun h => hn (h ▸ hx)
  rw [Function.update_noteq hxn]

lemma getLast?_cons_exists (a : Nat) (l : List Nat) : ∃ p, (a :: l).getLast? = some p := by
  induction l generalizing a with
  | nil => exact ⟨a, rfl⟩
  | cons b l2 ih =>
    obtain ⟨p, hp⟩ := ih b
    exact ⟨p, by rw [List.getLast?_cons_cons]; exact hp⟩

/-- Master description of `remove` on a well-formed list: the removed
node's `next` pointer is null afterwards, the traversal from the (new)
head visits exactly the original chain with the node erased, and no value
changes. -/
lemma remove_spec {V : Type} {s : LState V} {n : Nat} {c : List Nat} {fuel : Nat}
    (hc : chainb s.next s.head c = true) (hnd : c.Nodup) (hf : c.length ≤ fuel) :
    (remove n fuel s).next n = none ∧
      chainb (remove n fuel s).next (remove n fuel s).head (c.erase n) = true ∧
      (remove n fuel s).value = s.value := by
  by_cases hn : n ∈ c
  · obtain ⟨pre, suf, rfl⟩ := List.append_of_mem hn
    have hdisj := List.nodup_append.mp hnd
    have hnpre : n ∉ pre := fun h => hdisj.2.2 h (List.mem_cons_self n suf)
    have hnsuf : n ∉ suf := (List.nodup_cons.mp hdisj.2.1).1
    have herase : (pre ++ n :: suf).erase n = pre ++ suf := by
      rw [List.erase_append_right _ hnpre, List.erase_cons_head]
    cases pre with
    | nil =>
      simp only [List.nil_append] at hc hf herase ⊢
      have h0 : 0 < fuel := by
        rw [List.length_cons] at hf
        omega
      rw [remove_head hc h0, herase]
      refine ⟨?_, ?_, rfl⟩
      · show Function.update s.next n none n = none
        exact Function.update_same n none s.next
      · show chainb (Function.update s.next n none) (s.next n) suf = true
        rw [chainb_update_notmem hnsuf]
        exact (chainb_cons.mp hc).2
    | cons a pre2 =>
      obtain ⟨p, hp⟩ := getLast?_cons_exists a pre2
      rw [remove_mid hc hnpre hp hf, herase]
      refine ⟨?_, ?_, rfl⟩
      · show Function.update (Function.update s.next p (s.next n)) n none n = none
        exact Function.update_same n none (Function.update s.next p (s.next n))
      · show chainb (Function.update (Function.update s.next p (s.next n)) n none)
          s.head (a :: pre2 ++ suf) = true
        exact chainb_remove_mid hc hnd hp
  · rw [remove_absent hc hn hf, List.erase_of_not_mem hn]
    refine ⟨?_, ?_, rfl⟩
    · show Function.update s.next n none n = none
      exact Function.update_same n none s.next
    · show chainb (Function.update s.next n none) s.head c = true
      rw [chainb_update_notmem hn]
      exact hc

/-! ## Characterizing the traversal-based operations -/

lemma collectFrom_eq {V : Type} {value : Nat → V} {nf : Nat → Option Nat} :
    ∀ {c : List Nat} {o : Option Nat} {fuel : Nat}, chainb nf o c = true →
      c.length ≤ fuel → collectFrom value nf fuel o = c.map value := by
  intro c
  induction c with
  | nil =>
    intro o fuel hc _
    rw [chainb_nil] at hc
    subst hc
    cases fuel <;> rfl
  | cons a rest ih =>
    intro o fuel hc hf
    rw [chainb_cons] at hc
    obtain ⟨rfl, hrest⟩ := hc
    cases fuel with
    | zero => simp at hf
    | succ f =>
      simp only [collectFrom, List.map_cons]
      rw [ih hrest (Nat.le_of_succ_le_succ hf)]

lemma containsFrom_false {V : Type} [DecidableEq V] {value : Nat → V} {nf : Nat → Option Nat}
    {v : V} :
    ∀ {c : List Nat} {o : Option Nat} {fuel : Nat}, chainb nf o c = true →
      c.length ≤ fuel → (∀ a ∈ c, ¬ value a = v) → containsFrom value nf v fuel o = false := by
  intro c
  induction c with
  | nil =>
    intro o fuel hc _ _
    rw [chainb_nil] at hc
    subst hc
    cases fuel <;> rfl
  | cons a rest ih =>
    intro o fuel hc hf hv
    rw [chainb_cons] at hc
    obtain ⟨rfl, hrest⟩ := hc
    cases fuel with
    | zero => simp at hf
    | succ f =>
      simp only [containsFrom, if_neg (hv a (List.mem_cons_self a rest))]
      exact ih hrest (Nat.le_of_succ_le_succ hf) (fun x hx => hv x (List.mem_cons_of_mem a hx))

lemma toString_eq {V : Type} [ToString V] {s : LState V} {c : List Nat} {fuel : Nat}
    (hc : chainb s.next s.head c = true) (hf : c.length ≤ fuel) :
    LState.toString s fuel =
      String.intercalate " -> " (c.map fun a => ToString.toString (s.value a)) := by
  rw [LState.toString, collectFrom_eq hc hf, List.map_map]
  rfl

/-- `remove` of a node that is detached (null `next`, not in the chain) is
a complete no-op. -/
lemma remove_detached_noop {V : Type} {s : LState V} {n : Nat} {c : List Nat} {fuel : Nat}
    (hc : chainb s.next s.head c = true) (hn : n ∉ c) (hdet : s.next n = none)
    (hf : c.length ≤ fuel) : remove n fuel s = s := by
  rw [remove_absent hc hn hf, ← hdet, Function.update_eq_self]

/-- `insertAfter e n` for a member `e` and non-member `n`: the two splice
writes, and the chain gains `n` right after `e`. -/
lemma insertAfter_spec {V : Type} {s : LState V} {e n : Nat} {pre suf : List Nat} {fuel : Nat}
    (hc : chainb s.next s.head (pre ++ e :: suf) = true) (hnd : (pre ++ e :: suf).Nodup)
    (hn : n ∉ pre ++ e :: suf) (hf : (pre ++ e :: suf).length ≤ fuel) :
    insertAfter e n fuel s =
      { s with next := Function.update (Function.update s.next n (s.next e)) e (some n) } ∧
      chainb (Function.update (Function.update s.next n (s.next e)) e (some n)) s.head
        (pre ++ e :: n :: suf) = true := by
  have hne : e ≠ n := by
    intro h
    rw [← h] at hn
    exact hn (List.mem_append_right pre (List.mem_cons_self e suf))
  refine ⟨?_, chainb_insert_after hc hnd hn⟩
  simp only [insertAfter, if_neg hne]
  rw [remove_absent hc hn hf]
  show ({ s with next :=
      Function.update (Function.update (Function.update s.next n none) n
        ((Function.update s.next n none) e)) e (some n) } : LState V) = _
  rw [Function.update_idem, Function.update_noteq hne]

/-- `setHead` on the empty list just assigns `head`, touching no pointer. -/
lemma setHead_empty {V : Type} {s : LState V} {n fuel : Nat} (h : s.head = none) :
    setHead n fuel s = { s with head := some n } := by
  simp only [setHead, h]

/-- `setHead n` on a non-empty list whose chain does not contain `n`. -/
lemma setHead_spec {V : Type} {s : LState V} {n : Nat} {c : List Nat} {fuel : Nat}
    (hc : chainb s.next s.head c = true) (hn : n ∉ c) (hne : c ≠ []) (hf : c.length ≤ fuel) :
    setHead n fuel s =
      { s with head := some n, next := Function.update s.next n s.head } ∧
      chainb (Function.update s.next n s.head) (some n) (n :: c) = true := by
  obtain ⟨a, rest, rfl⟩ : ∃ a rest, c = a :: rest := by
    cases c with
    | nil => exact absurd rfl hne
    | cons a rest => exact ⟨a, rest, rfl⟩
  have hh : s.head = some a := (chainb_cons.mp hc).1
  constructor
  · simp only [setHead, hh]
    rw [remove_absent hc hn hf]
    show ({ s with
        next := Function.update (Function.update s.next n none) n s.head,
        head := some n } : LState V) = _
    rw [Function.update_idem, hh]
  · rw [chainb_cons]
    refine ⟨rfl, ?_⟩
    rw [Function.update_same, chainb_update_notmem hn]
    exact hc

/-- When the chain is nonempty and the requested position lies strictly
beyond one past its length, the scan of `insertAtPosition` runs off the
end and throws, reporting the counter `i + length`. -/
lemma iapScan_throw {nf : Nat → Option Nat} :
    ∀ {c : List Nat} {o prev : Option Nat} {i r : Nat}, chainb nf o c = true → c ≠ [] →
      c.length < r → iapScan nf r i o prev = ScanResult.thrownErr (i + c.length) := by
  intro c
  induction c with
  | nil => intro o prev i r _ hne _; exact absurd rfl hne
  | cons a rest ih =>
    intro o prev i r hc _ hr
    rw [chainb_cons] at hc
    obtain ⟨rfl, hrest⟩ := hc
    rw [List.length_cons] at hr
    obtain ⟨r2, rfl⟩ : ∃ r2, r = r2 + 1 := ⟨r - 1, by omega⟩
    cases rest with
    | nil =>
      have hna : nf a = none := chainb_nil.mp hrest
      simp only [iapScan]
      rw [if_pos ⟨hna, by omega⟩]
      rfl
    | cons b rest2 =>
      have hab : nf a = some b := (chainb_cons.mp hrest).1
      simp only [iapScan]
      rw [if_neg (by simp [hab])]
      rw [hab] at hrest ⊢
      rw [ih hrest (by simp) (by simp only [List.length_cons] at hr ⊢; omega)]
      have hlen : i + 1 + (b :: rest2).length = i + (a :: b :: rest2).length := by
        simp only [List.length_cons]
        omega
      rw [hlen]

/-- Loop invariant of `removeNodesWithValue`: the already-visited prefix
`kept` (all of whose values differ from `v`) stays, and the unvisited
suffix gets filtered; the captured successor pointer `o` always starts the
unvisited suffix. -/
lemma removeNodesWithValueGo_spec {V : Type} [DecidableEq V] {v : V} {inner : Nat} :
    ∀ (rest kept : List Nat) (s : LState V) (o : Option Nat) (fuelO : Nat),
      chainb s.next s.head (kept ++ rest) = true →
      (kept ++ rest).Nodup →
      (∀ x ∈ kept, ¬ s.value x = v) →
      chainb s.next o rest = true →
      rest.length ≤ fuelO → (kept ++ rest).length ≤ inner →
      chainb (removeNodesWithValueGo v inner fuelO o s).next
          (removeNodesWithValueGo v inner fuelO o s).head
          (kept ++ rest.filter fun x => !(decide (s.value x = v))) = true ∧
        (removeNodesWithValueGo v inner fuelO o s).value = s.value := by
  intro rest
  induction rest with
  | nil =>
    intro kept s o fuelO hmain _ _ hseg _ _
    rw [chainb_nil] at hseg
    subst hseg
    have hstop : removeNodesWithValueGo v inner fuelO none s = s := by
      cases fuelO <;> rfl
    rw [hstop]
    simpa using hmain
  | cons a rest2 ih =>
    intro kept s o fuelO hmain hnd hkept hseg hfo hin
    rw [chainb_cons] at hseg
    obtain ⟨rfl, hseg2⟩ := hseg
    cases fuelO with
    | zero => simp at hfo
    | succ f =>
      have hdisj := List.nodup_append.mp hnd
      have hakept : a ∉ kept := fun h => hdisj.2.2 h (List.mem_cons_self a rest2)
      have harest : a ∉ rest2 := (List.nodup_cons.mp hdisj.2.1).1
      have hnd2 : (kept ++ rest2).Nodup :=
        hnd.sublist ((List.sublist_cons_self a rest2).append_left kept)
      have hfo2 : rest2.length ≤ f := by
        rw [List.length_cons] at hfo
        omega
      simp only [removeNodesWithValueGo]
      by_cases hval : s.value a = v
      · rw [if_pos hval]
        have hfilter : ((a :: rest2).filter fun x => !(decide (s.value x = v)))
            = rest2.filter fun x => !(decide (s.value x = v)) := by
          simp [List.filter_cons, hval]
        rw [hfilter]
        cases kept with
        | nil =>
          rw [List.nil_append] at hmain hin hnd ⊢
          have h0 : 0 < inner := by
            rw [List.length_cons] at hin
            omega
          rw [remove_head hmain h0]
          have hseg3 : chainb (Function.update s.next a none) (s.next a) rest2 = true := by
            rw [chainb_update_notmem harest]
            exact hseg2
          have hres := ih []
            ({ s with head := s.next a, next := Function.update s.next a none }) (s.next a) f
            (by rw [List.nil_append]; exact hseg3)
            (by simpa using (List.nodup_cons.mp hnd).2)
            (by simp)
            hseg3
            hfo2
            (by rw [List.length_cons] at hin; simp only [List.nil_append]; omega)
          rw [List.nil_append] at hres
          exact hres
        | cons k kept2 =>
          obtain ⟨p, hp⟩ := getLast?_cons_exists k kept2
          have hpmem : p ∈ k :: kept2 := getLast?_mem_list hp
          have hpar : p ∉ a :: rest2 := fun h => hdisj.2.2 hpmem h
          have hprest : p ∉ rest2 := fun h => hpar (List.mem_cons_of_mem a h)
          rw [remove_mid hmain hakept hp hin]
          have hseg3 : chainb (Function.update (Function.update s.next p (s.next a)) a none)
              (s.next a) rest2 = true := by
            rw [chainb_update_notmem harest, chainb_update_notmem hprest]
            exact hseg2
          have hres := ih (k :: kept2)
            ({ s with next :=
                Function.update (Function.update s.next p (s.next a)) a none }) (s.next a) f
            (chainb_remove_mid hmain hnd hp)
            hnd2
            (fun x hx => hkept x hx)
            hseg3
            hfo2
            (by simp only [List.length_append, List.length_cons] at hin ⊢; omega)
          exact hres
      · rw [if_neg hval]
        have hfilter : ((a :: rest2).filter fun x => !(decide (s.value x = v)))
            = a :: (rest2.filter fun x => !(decide (s.value x = v))) := by
          simp [List.filter_cons, hval]
        rw [hfilter]
        have hres := ih (kept ++ [a]) s (s.next a) f
          (by rw [List.append_assoc]; exact hmain)
          (by rw [List.append_assoc]; exact hnd)
          (by
            intro x hx
            rcases List.mem_append.mp hx with hx1 | hx2
            · exact hkept x hx1
            · rw [List.mem_singleton.mp hx2]
              intro h
              exact hval h)
          hseg2
          hfo2
          (by simp only [List.length_append, List.length_cons, List.length_nil] at hin ⊢; omega)
        rw [List.append_assoc] at hres
        exact hres

/-- Loop invariant of the constructor's chaining loop: `done` is the chain
built so far (ending in `prev`), every remaining node is detached, and the
loop appends the remaining nodes in order. -/
lemma ctorGo_spec {V : Type} {fuel : Nat} :
    ∀ (rest done : List Nat) (prev : Nat) (s : LState V),
      chainb s.next s.head done = true →
      done.getLast? = some prev →
      (done ++ rest).Nodup →
      (∀ m ∈ rest, s.next m = none) →
      done.length + rest.length ≤ fuel →
      chainb (ctorGo fuel prev rest s).next (ctorGo fuel prev rest s).head (done ++ rest)
          = true ∧
        (ctorGo fuel prev rest s).head = s.head ∧
        (ctorGo fuel prev rest s).value = s.value := by
  intro rest
  induction rest with
  | nil =>
    intro done prev s hc _ _ _ _
    refine ⟨?_, rfl, rfl⟩
    show chainb s.next s.head (done ++ []) = true
    simpa using hc
  | cons cur rest2 ih =>
    intro done prev s hc hlast hnd hdet hf
    obtain ⟨d0, done2, rfl⟩ : ∃ d0 done2, done = d0 :: done2 := by
      cases done with
      | nil => simp at hlast
      | cons d0 done2 => exact ⟨d0, done2, rfl⟩
    have hh : s.head = some d0 := (chainb_cons.mp hc).1
    have hdone_ne : (d0 :: done2) ≠ [] := by simp
    have hgl : (d0 :: done2).getLast hdone_ne = prev := by
      have := List.getLast?_eq_getLast (d0 :: done2) hdone_ne
      rw [hlast] at this
      exact (Option.some.inj this).symm
    have hdecomp : (d0 :: done2).dropLast ++ [prev] = d0 :: done2 := by
      rw [← hgl]
      exact List.dropLast_append_getLast hdone_ne
    have hdisj := List.nodup_append.mp hnd
    have hcur_done : cur ∉ d0 :: done2 := fun h =>
      hdisj.2.2 h (List.mem_cons_self cur rest2)
    have hspec := @insertAfter_spec V s prev cur (d0 :: done2).dropLast [] fuel
      (by rw [hdecomp]; exact hc)
      (by rw [hdecomp]; exact hdisj.1)
      (by rw [hdecomp]; exact hcur_done)
      (by
        rw [hdecomp]
        simp only [List.length_cons, List.length_append] at hf ⊢
        omega)
    obtain ⟨heq, hchain⟩ := hspec
    have hlist : (d0 :: done2) ++ [cur] = (d0 :: done2).dropLast ++ prev :: cur :: [] := by
      conv_lhs => rw [← hdecomp]
      rw [List.append_assoc]
      rfl
    rw [← hlist] at hchain
    simp only [ctorGo, hh]
    rw [heq]
    have hprev_done : prev ∈ d0 :: done2 := getLast?_mem_list hlast
    have hres := ih ((d0 :: done2) ++ [cur]) cur
      ({ s with next :=
          Function.update (Function.update s.next cur (s.next prev)) prev (some cur) })
      hchain
      (List.getLast?_concat (d0 :: done2))
      (by rw [List.append_assoc]; exact hnd)
      (by
        intro m hm
        have hmcur : m ≠ cur := fun h =>
          (List.nodup_cons.mp hdisj.2.1).1 (h ▸ hm)
        have hmprev : m ≠ prev := fun h =>
          hdisj.2.2 (h ▸ hprev_done) (List.mem_cons_of_mem cur hm)
        show Function.update (Function.update s.next cur (s.next prev)) prev (some cur) m
            = none
        rw [Function.update_noteq hmprev, Function.update_noteq hmcur]
        exact hdet m (List.mem_cons_of_mem cur hm))
      (by
        simp only [List.length_cons, List.length_append, List.length_nil] at hf ⊢
        omega)
    obtain ⟨hchain2, hhead2, hvalue2⟩ := hres
    rw [List.append_assoc] at hchain2
    exact ⟨hchain2, hhead2.trans hh, hvalue2⟩

/-- The constructor on pairwise-distinct detached nodes builds exactly the
given chain. -/
lemma newList_spec {V : Type} {s0 : LState V} {nodes : List Nat} {fuel : Nat}
    (hnd : nodes.Nodup) (hdet : ∀ m ∈ nodes, s0.next m = none) (hf : nodes.length ≤ fuel) :
    (newList fuel nodes s0).head = nodes.head? ∧
      chainb (newList fuel nodes s0).next (newList fuel nodes s0).head nodes = true := by
  cases nodes with
  | nil => exact ⟨rfl, chainb_nil.mpr rfl⟩
  | cons n0 rest =>
    simp only [newList]
    rw [setHead_empty rfl]
    have hchain0 : chainb s0.next (some n0) [n0] = true := by
      rw [chainb_cons]
      exact ⟨rfl, chainb_nil.mpr (hdet n0 (List.mem_cons_self n0 rest))⟩
    have hres := @ctorGo_spec V fuel rest [n0] n0 ({ s0 with head := some n0 })
      hchain0
      rfl
      hnd
      (fun m hm => hdet m (List.mem_cons_of_mem n0 hm))
      (by
        simp only [List.length_cons, List.length_nil] at hf ⊢
        omega)
    obtain ⟨hchain, hhead, _⟩ := hres
    exact ⟨by rw [hhead]; rfl, hchain⟩

/-! ## The state-passing queries return the state unchanged -/

lemma collectFromM_eq {V : Type} :
    ∀ (fuel : Nat) (o : Option Nat) (s : LState V),
      collectFromM fuel o s = (collectFrom s.value s.next fuel o, s) := by
  intro fuel
  induction fuel with
  | zero => intro o s; rfl
  | succ f ih =>
    intro o s
    cases o with
    | none => rfl
    | some a => simp only [collectFromM, collectFrom, ih]

lemma containsFromM_eq {V : Type} [DecidableEq V] {v : V} :
    ∀ (fuel : Nat) (o : Option Nat) (s : LState V),
      containsFromM v fuel o s = (containsFrom s.value s.next v fuel o, s) := by
  intro fuel
  induction fuel with
  | zero => intro o s; rfl
  | succ f ih =>
    intro o s
    cases o with
    | none => rfl
    | some a =>
      by_cases h : s.value a = v
      · simp only [containsFromM, containsFrom, if_pos h]
      · simp only [containsFromM, containsFrom, if_neg h, ih]

lemma nodup_insert_mid {pre suf : List Nat} {e n : Nat}
    (h : (pre ++ e :: suf).Nodup) (hn : n ∉ pre ++ e :: suf) :
    (pre ++ e :: n :: suf).Nodup := by
  rw [List.nodup_append] at h ⊢
  obtain ⟨h1, h2, h3⟩ := h
  rw [List.nodup_cons] at h2
  obtain ⟨he, hsuf⟩ := h2
  have hne : n ≠ e := fun hh =>
    hn (by rw [hh]; exact List.mem_append_right pre (List.mem_cons_self e suf))
  have hnsuf : n ∉ suf := fun hh =>
    hn (List.mem_append_right pre (List.mem_cons_of_mem e hh))
  have hnpre : n ∉ pre := fun hh => hn (List.mem_append_left _ hh)
  refine ⟨h1, ?_, ?_⟩
  · rw [List.nodup_cons]
    constructor
    · intro hh
      rcases List.mem_cons.mp hh with h4 | h5
      · exact hne h4.symm
      · exact he h5
    · rw [List.nodup_cons]
      exact ⟨hnsuf, hsuf⟩
  · intro x hx hmem
    rcases List.mem_cons.mp hmem with h4 | h5
    · exact h3 hx (by rw [h4]; exact List.mem_cons_self e suf)
    · rcases List.mem_cons.mp h5 with h6 | h7
      · exact hnpre (h6 ▸ hx)
      · exact h3 hx (List.mem_cons_of_mem e h7)

/-! ## The claims -/

/-- Claim C3: for every well-formed `LinkedList`, `toString()` returns the
node values in head-to-tail traversal order joined by the separator
`" -> "` (exactly one space on each side of the arrow), and the empty
string when the list is empty. -/
theorem toString_joins_values {V : Type} [ToString V] (s : LState V) (c : List Nat) (fuel : Nat)
    (hc : chainb s.next s.head c = true) (hf : c.length ≤ fuel) :
    LState.toString s fuel =
      String.intercalate " -> " (c.map fun a => ToString.toString (s.value a)) ∧
      (s.head = none → LState.toString s fuel = "") := by
  refine ⟨toString_eq hc hf, ?_⟩
  intro hnone
  have hcnil : c = [] := by
    cases c with
    | nil => rfl
    | cons a rest =>
      rw [chainb_cons] at hc
      rw [hc.1] at hnone
      exact Option.noConfusion hnone
  subst hcnil
  rw [toString_eq hc hf]
  rfl

/-- Witness for C3 on the three-node list `foo -> bar -> baz` and on the
empty list. -/
theorem toString_joins_values_witness :
    LState.toString sampleS3 3 =
      String.intercalate " -> " ([0, 1, 2].map fun a => ToString.toString (sampleS3.value a)) ∧
      LState.toString emptyS 3 = "" := by
  constructor
  · exact (toString_joins_values sampleS3 [0, 1, 2] 3 (by decide) (by decide)).1
  · exact (toString_joins_values emptyS [] 3 (by decide) (by decide)).2 rfl

/-- Claim C4: on a well-formed list, inserting a node `n` that is not in
the list after a reachable node `e` with `insertAfter(e, n)` and then
calling `remove(n)` leaves `toString()` equal to its value before the two
calls. -/
theorem insertAfter_remove_roundtrip {V : Type} [ToString V] (s : LState V) (c : List Nat)
    (e n fuel : Nat) (hc : chainb s.next s.head c = true) (hnd : c.Nodup) (he : e ∈ c)
    (hn : n ∉ c) (hf : c.length + 1 ≤ fuel) :
    LState.toString (remove n fuel (insertAfter e n fuel s)) fuel = LState.toString s fuel := by
  obtain ⟨pre, suf, rfl⟩ := List.append_of_mem he
  have hflen : (pre ++ e :: suf).length ≤ fuel := by omega
  obtain ⟨heq, hchain⟩ := @insertAfter_spec V s e n pre suf fuel hc hnd hn hflen
  rw [heq]
  have hnd2 : (pre ++ e :: n :: suf).Nodup := nodup_insert_mid hnd hn
  have hflen2 : (pre ++ e :: n :: suf).length ≤ fuel := by
    simp only [List.length_append, List.length_cons] at hf ⊢
    omega
  have hchain2 : chainb
      ({ s with next := Function.update (Function.update s.next n (s.next e)) e (some n)
        } : LState V).next
      ({ s with next := Function.update (Function.update s.next n (s.next e)) e (some n)
        } : LState V).head (pre ++ e :: n :: suf) = true := hchain
  obtain ⟨h1, h2, h3⟩ := remove_spec hchain2 hnd2 hflen2
  have hne : e ≠ n := fun hh =>
    hn (by rw [← hh]; exact List.mem_append_right pre (List.mem_cons_self e suf))
  have herase : (pre ++ e :: n :: suf).erase n = pre ++ e :: suf := by
    have hnpre : n ∉ pre := fun hh => hn (List.mem_append_left _ hh)
    rw [List.erase_append_right _ hnpre, List.erase_cons_tail, List.erase_cons_head]
    simp [hne]
  rw [herase] at h2
  rw [toString_eq h2 hflen, toString_eq hc hflen, h3]

/-- Witness for C4: insert node 3 after node 1 of `foo -> bar -> baz`,
remove it again, and the serialization is restored. -/
theorem insertAfter_remove_roundtrip_witness :
    LState.toString (remove 3 4 (insertAfter 1 3 4 sampleS3)) 4 = LState.toString sampleS3 4 :=
  insertAfter_remove_roundtrip sampleS3 [0, 1, 2] 1 3 4 (by decide) (by decide) (by decide)
    (by decide) (by decide)

/-- Claim C1, counterexample: on the three-node list `foo -> bar -> baz`
(length 3) with detached node 3, position 4 is strictly greater than the
length yet `insertAtPosition` does not throw; and at position 99, where it
does throw, the message reports 4 — not the list's length 3. -/
theorem insertAtPosition_oor_counterexample :
    chainb sampleS3.next sampleS3.head [0, 1, 2] = true ∧
      (3 : Nat) ∉ ([0, 1, 2] : List Nat) ∧
      sampleS3.next 3 = none ∧
      3 < 4 ∧
      (insertAtPosition 4 3 10 sampleS3).threw = false ∧
      (insertAtPosition 99 3 10 sampleS3).message = some (errMsg 99 4) ∧
      errMsg 99 4 ≠ errMsg 99 3 := by
  decide

/-- Claim C1, amended: for every nonempty well-formed `LinkedList` of
length `L` and detached node `n` not in the list, `insertAtPosition(p, n)`
with `p` strictly greater than `L + 1` fails with the error reporting the
requested position and `L + 1` (one more than the list's length), leaving
the list unchanged. -/
theorem insertAtPosition_oor_throws {V : Type} (s : LState V) (c : List Nat) (p n fuel : Nat)
    (hc : chainb s.next s.head c = true) (hne : c ≠ []) (hn : n ∉ c) (hdet : s.next n = none)
    (hp : c.length + 1 < p) (hf : c.length ≤ fuel) :
    insertAtPosition p n fuel s = IAPOutcome.err (errMsg p (c.length + 1)) s := by
  have hnoop : remove n fuel s = s := remove_detached_noop hc hn hdet hf
  simp only [insertAtPosition]
  rw [hnoop]
  rw [iapScan_throw hc hne (by omega)]
  show IAPOutcome.err (errMsg p (1 + c.length)) s = IAPOutcome.err (errMsg p (c.length + 1)) s
  rw [Nat.add_comm]

/-- Witness for the amended C1: `insertAtPosition(99, ·)` on the
three-node list throws the error reporting 99 and 4. -/
theorem insertAtPosition_oor_throws_witness :
    insertAtPosition 99 3 10 sampleS3 = IAPOutcome.err (errMsg 99 4) sampleS3 :=
  insertAtPosition_oor_throws sampleS3 [0, 1, 2] 99 3 10 (by decide) (by decide) (by decide)
    (by decide) (by decide) (by decide)

/-- Claim C2: the operation is not total — on the empty list,
`insertAtPosition(2, n)` reaches the read of `currentNode.next` with
`currentNode = null` (the line the source suppresses with `@ts-ignore`)
and crashes instead of returning normally or throwing the documented
out-of-range error. -/
theorem insertAtPosition_crashes_on_empty :
    emptyS.head = none ∧ emptyS.next 3 = none ∧
      (insertAtPosition 2 3 5 emptyS).crashed = true := by
  decide

/-- Claim C5: `removeNodesWithValue(v)` removes exactly the nodes whose
value equals `v` — the traversal afterwards visits the original chain
filtered to the nodes with other values, in their original relative
order — and afterwards `containsNodeWithValue(v)` returns false. -/
theorem removeNodesWithValue_removes_exactly {V : Type} [DecidableEq V] (s : LState V)
    (c : List Nat) (v : V) (fuel : Nat) (hc : chainb s.next s.head c = true) (hnd : c.Nodup)
    (hf : c.length ≤ fuel) :
    chainb (removeNodesWithValue v fuel s).next (removeNodesWithValue v fuel s).head
        (c.filter fun x => !(decide (s.value x = v))) = true ∧
      containsNodeWithValue v fuel (removeNodesWithValue v fuel s) = false := by
  have hres := @removeNodesWithValueGo_spec V _ v fuel c [] s s.head fuel
    (by rw [List.nil_append]; exact hc)
    (by rw [List.nil_append]; exact hnd)
    (by simp)
    hc
    hf
    (by rw [List.nil_append]; exact hf)
  obtain ⟨hchain, hvals⟩ := hres
  rw [List.nil_append] at hchain
  have hchain2 : chainb (removeNodesWithValue v fuel s).next
      (removeNodesWithValue v fuel s).head
      (c.filter fun x => !(decide (s.value x = v))) = true := hchain
  refine ⟨hchain2, ?_⟩
  have hvals2 : (removeNodesWithValue v fuel s).value = s.value := hvals
  have hlen : (c.filter fun x => !(decide (s.value x = v))).length ≤ fuel :=
    le_trans (List.length_filter_le _ c) hf
  have hmem : ∀ x ∈ c.filter fun x => !(decide (s.value x = v)),
      ¬ (removeNodesWithValue v fuel s).value x = v := by
    intro x hx
    rw [hvals2]
    have := List.of_mem_filter hx
    simpa using this
  exact containsFrom_false hchain2 hlen hmem

/-- Witness for C5 on `foo -> bar -> bar -> bar -> qux`: removing value
`"bar"` leaves the chain filtered to nodes 0 and 4, and the value is no
longer contained. -/
theorem removeNodesWithValue_removes_exactly_witness :
    chainb (removeNodesWithValue "bar" 5 sampleS5).next
        (removeNodesWithValue "bar" 5 sampleS5).head
        ([0, 1, 2, 3, 4].filter fun x => !(decide (sampleS5.value x = "bar"))) = true ∧
      containsNodeWithValue "bar" 5 (removeNodesWithValue "bar" 5 sampleS5) = false :=
  removeNodesWithValue_removes_exactly sampleS5 [0, 1, 2, 3, 4] "bar" 5 (by decide) (by decide)
    (by decide)

/-- Claim C6: `remove(n)` is idempotent — calling it twice in succession
yields exactly the state (same head, same `next` on every node, same
values) that one call yields, whether or not `n` is in the list. -/
theorem remove_idempotent {V : Type} (s : LState V) (c : List Nat) (n fuel : Nat)
    (hc : chainb s.next s.head c = true) (hnd : c.Nodup) (hf : c.length ≤ fuel) :
    remove n fuel (remove n fuel s) = remove n fuel s := by
  obtain ⟨hnil, hchain, _⟩ := @remove_spec V s n c fuel hc hnd hf
  have hmem : n ∉ c.erase n := fun h => ((hnd.mem_erase_iff).mp h).1 rfl
  have hlen : (c.erase n).length ≤ fuel := le_trans (c.erase_sublist n).length_le hf
  rw [remove_absent hchain hmem hlen, ← hnil, Function.update_eq_self]

/-- Witness for C6: removing the middle node of `foo -> bar -> baz` twice
equals removing it once. -/
theorem remove_idempotent_witness :
    remove 1 3 (remove 1 3 sampleS3) = remove 1 3 sampleS3 :=
  remove_idempotent sampleS3 [0, 1, 2] 1 3 (by decide) (by decide) (by decide)

/-- Claim C7: after `remove(n)` on a well-formed list, `n.next` is null
and `n` is not reachable from the head — the forward traversal visits
exactly the original chain with `n` erased, which does not contain `n`. -/
theorem remove_detaches {V : Type} (s : LState V) (c : List Nat) (n fuel : Nat)
    (hc : chainb s.next s.head c = true) (hnd : c.Nodup) (hf : c.length ≤ fuel) :
    (remove n fuel s).next n = none ∧
      chainb (remove n fuel s).next (remove n fuel s).head (c.erase n) = true ∧
      n ∉ c.erase n := by
  obtain ⟨h1, h2, _⟩ := @remove_spec V s n c fuel hc hnd hf
  exact ⟨h1, h2, fun h => ((hnd.mem_erase_iff).mp h).1 rfl⟩

/-- Witness for C7: removing the head of `foo -> bar -> baz`. -/
theorem remove_detaches_witness :
    (remove 0 3 sampleS3).next 0 = none ∧
      chainb (remove 0 3 sampleS3).next (remove 0 3 sampleS3).head ([0, 1, 2].erase 0) = true ∧
      0 ∉ [0, 1, 2].erase 0 :=
  remove_detaches sampleS3 [0, 1, 2] 0 3 (by decide) (by decide) (by decide)

/-- Claim C8: constructing a list from pairwise-distinct detached nodes
yields a list whose head is the first node and whose forward traversal
visits exactly the given nodes in order; the empty sequence yields the
empty list. -/
theorem newList_builds_chain {V : Type} (s0 : LState V) (nodes : List Nat) (fuel : Nat)
    (hnd : nodes.Nodup) (hdet : ∀ m ∈ nodes, s0.next m = none) (hf : nodes.length ≤ fuel) :
    (newList fuel nodes s0).head = nodes.head? ∧
      chainb (newList fuel nodes s0).next (newList fuel nodes s0).head nodes = true :=
  newList_spec hnd hdet hf

/-- Witness for C8: constructing from the three detached nodes 0, 1, 2
over a fresh heap. -/
theorem newList_builds_chain_witness :
    (newList 3 [0, 1, 2] emptyS).head = some 0 ∧
      chainb (newList 3 [0, 1, 2] emptyS).next (newList 3 [0, 1, 2] emptyS).head [0, 1, 2]
        = true :=
  newList_builds_chain emptyS [0, 1, 2] 3 (by decide) (by decide) (by decide)

/-- Claim C9: `remove(n)` for a node `n` not reachable from the head
changes nothing except resetting `n.next` to null — the resulting state is
the input state with only that one pointer update. -/
theorem remove_unreachable_frame {V : Type} (s : LState V) (c : List Nat) (n fuel : Nat)
    (hc : chainb s.next s.head c = true) (hn : n ∉ c) (hf : c.length ≤ fuel) :
    remove n fuel s = { s with next := Function.update s.next n none } :=
  remove_absent hc hn hf

/-- Witness for C9: removing the detached node 4 from `foo -> bar -> baz`. -/
theorem remove_unreachable_frame_witness :
    remove 4 3 sampleS3 = { sampleS3 with next := Function.update sampleS3.next 4 none } :=
  remove_unreachable_frame sampleS3 [0, 1, 2] 4 3 (by decide) (by decide) (by decide)

/-- Claim C10: the queries are pure — the state-passing translations of
`toString()` and `containsNodeWithValue(v)` hand back exactly the input
state (same head, same `next` and `value` on every node) while computing
the same answers as the direct translations. -/
theorem queries_pure {V : Type} [DecidableEq V] [ToString V] (s : LState V) (v : V)
    (fuel : Nat) :
    (toStringM s fuel).2 = s ∧ (toStringM s fuel).1 = LState.toString s fuel ∧
      (containsNodeWithValueM v fuel s).2 = s ∧
      (containsNodeWithValueM v fuel s).1 = containsNodeWithValue v fuel s := by
  have h1 := collectFromM_eq fuel s.head s
  have h2 := @containsFromM_eq V _ v fuel s.head s
  refine ⟨?_, ?_, ?_, ?_⟩
  · show (collectFromM fuel s.head s).2 = s
    rw [h1]
  · show String.intercalate " -> " ((collectFromM fuel s.head s).1.map ToString.toString)
      = LState.toString s fuel
    rw [h1]
    rfl
  · show (containsFromM v fuel s.head s).2 = s
    rw [h2]
  · show (containsFromM v fuel s.head s).1 = containsNodeWithValue v fuel s
    rw [h2]
    rfl
